import Mathlib

/-!
Shallow embedding of `pennylane/_qubit_device.py` (class `QubitDevice`).

Probability vectors are modelled as functions `ℕ → ℚ` (indexed by basis-state
integers) or as `List ℚ`; machine floats are modelled by exact rationals, and
the `.real` projection of a real-valued inner product is the identity.
The big-endian convention of the device (wire 0 = most significant bit) is
captured by `wireBit`.
-/

namespace PennyLane

/-- Big-endian bit `j` of an `n`-bit basis-state index `i`: wire `0` is the
most significant bit, matching the device convention `|q_0, …, q_{N-1}⟩`
with `q_0` the most significant bit. -/
def wireBit (n j i : ℕ) : ℕ := i / 2 ^ (n - 1 - j) % 2

/-- `np.ravel_multi_index(row, [2]*len(row))` in C order: reads a row of
binary digits as a big-endian base-2 number (first digit most significant).
Also models the "reinterpretation as mixed-radix base-2" of a binary row. -/
def fromBits (l : List ℕ) : ℕ := l.foldl (fun a b => 2 * a + b) 0

/-- `np.argsort(w)`: the list of indices of `w` sorted by their key `w[i]`.
For the distinct keys occurring in this development any correct sort computes
the same list as numpy's quicksort. -/
def argsort (w : List ℕ) : List ℕ :=
  List.insertionSort (fun a b => w.getD a 0 ≤ w.getD b 0) (List.range w.length)

/-- The flattened result of
`np.apply_over_axes(np.sum, prob.reshape([2]*n), inactive).flatten()` in
`QubitDevice.marginal_prob`, where `ws` lists the axes that are *kept*
(in increasing axis order, as `flatten` preserves axis order): entry `m` is
the sum of `prob` over all full basis states whose bits on the kept axes
equal the big-endian digits of `m`. -/
def sumInactive (n : ℕ) (p : ℕ → ℚ) (ws : List ℕ) (m : ℕ) : ℚ :=
  ∑ x ∈ Finset.range (2 ^ n),
    if ∀ j ∈ Finset.range ws.length,
        wireBit n (ws.getD j 0) x = wireBit ws.length j m then p x else 0

/-- `np.ravel_multi_index(basis_states[:, rank].T, [2]*k)` applied to row `i`
of `basis_states` (the big-endian bits of `i`): the index whose big-endian
digit `j` is bit `rank[j]` of `i`. -/
def permIndex (k : ℕ) (rank : List ℕ) (i : ℕ) : ℕ :=
  fromBits ((List.range k).map fun j => wireBit k (rank.getD j 0) i)

/-- `QubitDevice.marginal_prob(prob, wires)`: `wires=None` returns `prob`
unchanged; otherwise the probability tensor is reshaped to `[2]*num_wires`,
the axes not in `wires` are summed out and the result flattened
(`sumInactive` over the kept axes in increasing axis order), and finally the
flat marginal is indexed through the double-argsort permutation
`perm = ravel(basis_states[:, argsort(argsort(wires))])`. -/
def marginal_prob (num_wires : ℕ) (prob : ℕ → ℚ) (wires : Option (List ℕ)) :
    ℕ → ℚ :=
  match wires with
  | none => prob
  | some W => fun i =>
      sumInactive num_wires prob
        ((List.range num_wires).filter fun a => W.contains a)
        (permIndex W.length (argsort (argsort W)) i)

/-- The marginal distribution as the specification words it: the entry at the
basis-state index whose bits are read *in the order of the caller's wires*
equals the sum of `prob` over all full basis states consistent with those bit
values.  This definition follows the spec's words and is compared against
`marginal_prob`, which is translated from the source. -/
def marginalPerSpec (num_wires : ℕ) (prob : ℕ → ℚ) (W : List ℕ) (i : ℕ) : ℚ :=
  ∑ x ∈ Finset.range (2 ^ num_wires),
    if ∀ j ∈ Finset.range W.length,
        wireBit num_wires (W.getD j 0) x = wireBit W.length j i then prob x
    else 0

/-- `QubitDevice.states_to_binary(samples, num_wires)` applied to one sample
`s`: `powers_of_two = 1 << arange(num_wires)`, `s & powers_of_two > 0` as
0/1 integers, then `[::-1]` reverses into big-endian order. -/
def states_to_binary (s n : ℕ) : List ℕ :=
  ((List.range n).map fun j => if 0 < s &&& (1 <<< j) then 1 else 0).reverse

/-- The per-row basis-state indices of `QubitDevice.estimate_probability`:
select the requested wire columns of each sample row and ravel them as a
big-endian base-2 (mixed-radix `[2]*len(wires)`) number. -/
def sampleIndices (samples : List (List ℕ)) (wires : List ℕ) : List ℕ :=
  samples.map fun row => fromBits (wires.map fun w => row.getD w 0)

/-- `QubitDevice.estimate_probability(wires)`: count the occurrences of each
basis-state index among the samples and normalise by the shot count; indices
that never occur keep the probability `0` of the freshly zeroed vector. -/
def estimate_probability (shots : ℕ) (samples : List (List ℕ))
    (wires : List ℕ) : List ℚ :=
  (List.range (2 ^ wires.length)).map fun j =>
    ((sampleIndices samples wires).count j : ℚ) / shots

/-- The return-type tags dispatched on by `QubitDevice.statistics`.  `Other`
stands for any tag that is none of the four supported ones and not `None`
(the `elif obs.return_type is not None` branch raises for it). -/
inductive ReturnType where
  | Expectation
  | Variance
  | Sample
  | Probability
  | Other
deriving DecidableEq

/-- An observable as consumed by `QubitDevice`: a name, a wire subset, a
return-type tag (`None` modelled as `none`), and an eigenvalue table indexed
by basis-state index over the observable's wires.  Eigenvalues of the
supported observables are real, so they are modelled as rationals and the
`.real` projection used by `expval`/`var` is the identity. -/
structure Observable where
  name : String
  wires : List ℕ
  return_type : Option ReturnType
  eigvals : List ℚ

/-- The `QubitDevice` state together with its external collaborators:
`analytic_prob` models the abstract method `analytic_probability` (must be
overridden by concrete devices), `translate` models the wire-index
translation function of the `Device` base class, and `rng` models
`np.random.choice(basis_states, shots, p=state_probability)` — an external
randomness source that, given the number of basis states and the weight
vector, returns the list of sampled basis-state indices. -/
structure QubitDevice where
  num_wires : ℕ
  shots : ℕ
  analytic : Bool
  samples : List (List ℕ)
  analytic_prob : Option (List ℕ) → List ℚ
  translate : List ℕ → List ℕ
  rng : ℕ → List ℚ → List ℕ

/-- `a @ b` on equal-length numeric vectors. -/
def dot (a b : List ℚ) : ℚ := (List.zipWith (· * ·) a b).sum

/-- `QubitDevice.probability(wires)`: `wires = wires or range(self.num_wires)`
replaces both `None` and the falsy empty sequence by the full wire range,
then dispatches on the `analytic` flag. -/
def probability (dev : QubitDevice) (wires : Option (List ℕ)) : List ℚ :=
  let w := match wires with
    | none => List.range dev.num_wires
    | some [] => List.range dev.num_wires
    | some l => l
  if dev.analytic then dev.analytic_prob (some w)
  else estimate_probability dev.shots dev.samples w

/-- `QubitDevice.sample(observable)`: single-wire Pauli-type observables map
each sampled bit `b` to the eigenvalue `1 - 2*b`; general observables map the
joint basis-state index over the observable's wires into the eigenvalue
table. -/
def sample (dev : QubitDevice) (obs : Observable) : List ℚ :=
  let wires := dev.translate obs.wires
  if obs.name ∈ ["PauliX", "PauliY", "PauliZ", "Hadamard"] then
    dev.samples.map fun row => 1 - 2 * (row.getD (wires.getD 0 0) 0 : ℚ)
  else
    dev.samples.map fun row =>
      obs.eigvals.getD (fromBits (wires.map fun w => row.getD w 0)) 0

/-- `np.mean`. -/
def mean (l : List ℚ) : ℚ := l.sum / l.length

/-- `np.var` (population variance). -/
def npvar (l : List ℚ) : ℚ := (l.map fun x => (x - mean l) ^ 2).sum / l.length

/-- `QubitDevice.expval(observable)`: in analytic mode
`(eigvals @ prob).real` with `prob = self.probability(translated wires)`;
otherwise the mean of the raw samples. -/
def expval (dev : QubitDevice) (obs : Observable) : ℚ :=
  let wires := dev.translate obs.wires
  if dev.analytic then dot obs.eigvals (probability dev (some wires))
  else mean (sample dev obs)

/-- `QubitDevice.var(observable)`: in analytic mode
`(eigvals ** 2) @ prob - ((eigvals @ prob).real) ** 2`; otherwise the
variance of the raw samples. -/
def var (dev : QubitDevice) (obs : Observable) : ℚ :=
  let wires := dev.translate obs.wires
  if dev.analytic then
    dot (obs.eigvals.map fun e => e ^ 2) (probability dev (some wires))
      - dot obs.eigvals (probability dev (some wires)) ^ 2
  else npvar (sample dev obs)

/-- One entry of the `results` list built by `QubitDevice.statistics`:
expectation values and variances are scalars, samples and probability
vectors are one-dimensional arrays. -/
inductive StatResult where
  | scalar (x : ℚ)
  | vector (xs : List ℚ)
deriving DecidableEq

/-- The numpy shape of a statistics entry: `[]` for a scalar, `[len]` for a
one-dimensional array. -/
def resShape : StatResult → List ℕ
  | .scalar _ => []
  | .vector xs => [xs.length]

/-- The message of the `QuantumFunctionError` raised by
`QubitDevice.statistics` for an unsupported return type. -/
def unsupportedMsg (obs : Observable) : String :=
  "Unsupported return type specified for observable " ++ obs.name

/-- `QubitDevice.statistics(observables)`: dispatch on each observable's
return-type tag, appending the corresponding statistic; a tag of `None` is
skipped silently; any other unsupported tag raises `QuantumFunctionError`
(modelled by `Except.error`), aborting the loop at the first offender. -/
def statistics (dev : QubitDevice) :
    List Observable → Except String (List StatResult)
  | [] => .ok []
  | obs :: rest =>
    match obs.return_type with
    | some .Expectation =>
        (statistics dev rest).map fun rs => .scalar (expval dev obs) :: rs
    | some .Variance =>
        (statistics dev rest).map fun rs => .scalar (var dev obs) :: rs
    | some .Sample =>
        (statistics dev rest).map fun rs => .vector (sample dev obs) :: rs
    | some .Probability =>
        (statistics dev rest).map fun rs =>
          .vector (probability dev (some (dev.translate obs.wires))) :: rs
    | some .Other => .error (unsupportedMsg obs)
    | none => statistics dev rest

/-- `QubitDevice.sample_basis_states(number_of_states, state_probability)`:
`np.random.choice(np.arange(number_of_states), self.shots, p=state_probability)`,
weighted sampling with replacement delegated to the external randomness
oracle `rng`. -/
def sample_basis_states (dev : QubitDevice) (number_of_states : ℕ)
    (state_probability : List ℚ) : List ℕ :=
  dev.rng number_of_states state_probability

/-- `QubitDevice.generate_samples()`: draw `shots` basis-state indices from
the analytic distribution over `2 ** num_wires` states and expand each into
its binary representation. -/
def generate_samples (dev : QubitDevice) : List (List ℕ) :=
  let number_of_states := 2 ^ dev.num_wires
  let rotated_prob := dev.analytic_prob none
  let samples := sample_basis_states dev number_of_states rotated_prob
  samples.map fun s => states_to_binary s dev.num_wires

/-- The container returned by `QubitDevice.execute`:
`np.asarray(results, dtype="object")` (heterogeneous) versus
`np.asarray(results)` (plain numeric). -/
inductive ExecResult where
  | numeric (rs : List StatResult)
  | objectArr (rs : List StatResult)
deriving DecidableEq

/-- The part of the external circuit representation consumed by the claims:
the ordered observable list and the `is_sampled` flag (whether any
observable requests raw samples). -/
structure Circuit where
  observables : List Observable
  is_sampled : Bool

/-- The measurement phase of `QubitDevice.execute(circuit)`.  `apply` is
abstract and out of scope, so `dev` is the device state after the circuit
has been applied.  When not in analytic mode or when the circuit is sampled,
`self._samples = self.generate_samples()`; then statistics are computed, and
the result is wrapped in an object-dtype array exactly when
`circuit.is_sampled and not all_sampled`. -/
def execute (dev : QubitDevice) (circuit : Circuit) : Except String ExecResult :=
  let dev' := if !dev.analytic || circuit.is_sampled
    then { dev with samples := generate_samples dev } else dev
  (statistics dev' circuit.observables).map fun results =>
    let all_sampled := circuit.observables.all fun o => o.return_type == some .Sample
    if circuit.is_sampled && !all_sampled then .objectArr results
    else .numeric results

/-! ### Concrete instances used by witnesses and counterexamples -/

/-- A 3-wire probability vector putting all mass on basis state `|010⟩`
(index 2). -/
def pointMass2 : ℕ → ℚ := fun x => if x = 2 then 1 else 0

/-- A 1-wire analytic device used by witnesses. -/
def devA : QubitDevice :=
  { num_wires := 1, shots := 2, analytic := true, samples := [[0], [0]],
    analytic_prob := fun _ => [1, 0], translate := id, rng := fun _ _ => [0, 0] }

/-- An `Identity` observable with return type `None` (as produced when no
measurement statistic is requested). -/
def obsNone : Observable :=
  { name := "Identity", wires := [0], return_type := none, eigvals := [1, 1] }

/-- A `PauliZ` expectation observable on wire 0. -/
def obsZ : Observable :=
  { name := "PauliZ", wires := [0], return_type := some .Expectation,
    eigvals := [1, -1] }

/-- An observable carrying an unsupported return-type tag. -/
def obsBad : Observable :=
  { name := "Hermitian", wires := [0], return_type := some .Other,
    eigvals := [2, 3] }

/-- A 2-wire analytic device used by the C7 scenario: four shots, uniform
analytic distribution, randomness oracle drawing all four basis states. -/
def devS : QubitDevice :=
  { num_wires := 2, shots := 4, analytic := true, samples := [],
    analytic_prob := fun _ => [1 / 4, 1 / 4, 1 / 4, 1 / 4], translate := id,
    rng := fun _ _ => [0, 1, 2, 3] }

/-- A raw-sample `PauliZ` observable on wire 0. -/
def obsSample : Observable :=
  { name := "PauliZ", wires := [0], return_type := some .Sample,
    eigvals := [1, -1] }

/-- A probability measurement over both wires. -/
def obsProb : Observable :=
  { name := "Identity", wires := [0, 1], return_type := some .Probability,
    eigvals := [1, 1, 1, 1] }

/-- A circuit mixing a raw-sample observable with a probability observable;
its `is_sampled` flag is set, as one observable requests raw samples. -/
def circMix : Circuit := { observables := [obsSample, obsProb], is_sampled := true }

/-- A 2-wire sampling device whose randomness oracle returns `[3, 0]`. -/
def devR : QubitDevice :=
  { num_wires := 2, shots := 2, analytic := false, samples := [],
    analytic_prob := fun _ => [1 / 2, 0, 0, 1 / 2], translate := id,
    rng := fun _ _ => [3, 0] }

/-! ### Helper lemmas -/

theorem foldl_shift (l : List ℕ) (a : ℕ) :
    l.foldl (fun x b => 2 * x + b) a =
      a * 2 ^ l.length + l.foldl (fun x b => 2 * x + b) 0 := by
  induction l generalizing a with
  | nil => simp
  | cons b l ih =>
    show l.foldl _ (2 * a + b) = a * 2 ^ (l.length + 1) + l.foldl _ (2 * 0 + b)
    rw [ih (2 * a + b), ih (2 * 0 + b)]
    ring

theorem fromBits_cons (b : ℕ) (l : List ℕ) :
    fromBits (b :: l) = b * 2 ^ l.length + fromBits l := by
  have h : fromBits (b :: l) = l.foldl (fun x b => 2 * x + b) (2 * 0 + b) := rfl
  rw [h, foldl_shift]
  show _ = b * 2 ^ l.length + l.foldl (fun x b => 2 * x + b) 0
  ring

theorem length_states_to_binary (s n : ℕ) :
    (states_to_binary s n).length = n := by
  simp [states_to_binary]

theorem states_to_binary_succ (s n : ℕ) :
    states_to_binary s (n + 1) =
      (if 0 < s &&& (1 <<< n) then 1 else 0) :: states_to_binary s n := by
  unfold states_to_binary
  rw [List.range_succ, List.map_append, List.reverse_append]
  rfl

theorem and_pow_pos_iff (s n : ℕ) :
    (if 0 < s &&& (1 <<< n) then 1 else 0) = s / 2 ^ n % 2 := by
  rw [Nat.one_shiftLeft, Nat.and_two_pow]
  rcases hb : s.testBit n with _ | _
  · rw [Nat.testBit_to_div_mod] at hb
    simp only [decide_eq_false_iff_not] at hb
    have h2 : s / 2 ^ n % 2 < 2 := Nat.mod_lt _ (by norm_num)
    simp [hb]
    omega
  · rw [Nat.testBit_to_div_mod] at hb
    simp only [decide_eq_true_eq] at hb
    simp [hb, Nat.pos_pow_of_pos]

theorem fromBits_states_to_binary (n s : ℕ) :
    fromBits (states_to_binary s n) = s % 2 ^ n := by
  induction n with
  | zero => simp [states_to_binary, fromBits, Nat.mod_one]
  | succ n ih =>
    rw [states_to_binary_succ, fromBits_cons, length_states_to_binary, ih,
      and_pow_pos_iff, pow_succ, Nat.mod_mul]
    ring

/-! ### Claim theorems -/

/-- C2: `marginal_prob(prob, wires=None)` returns the probability vector
unchanged — identity when no marginalization is requested. -/
theorem C2_marginal_prob_none_id (num_wires : ℕ) (prob : ℕ → ℚ) :
    marginal_prob num_wires prob none = prob := rfl

/-- C3: converting a basis-state index `i < 2 ^ n` with `states_to_binary`
and reinterpreting the resulting `n`-bit row as a big-endian base-2
(mixed-radix `[2]*n`) number recovers `i`. -/
theorem C3_states_to_binary_roundtrip (n i : ℕ) (h : i < 2 ^ n) :
    fromBits (states_to_binary i n) = i := by
  rw [fromBits_states_to_binary, Nat.mod_eq_of_lt h]

/-- Witness for C3 at `n = 3`, `i = 5`. -/
theorem C3_witness : 5 < 2 ^ 3 ∧ fromBits (states_to_binary 5 3) = 5 :=
  ⟨by decide, C3_states_to_binary_roundtrip 3 5 (by decide)⟩

/-- C9: calling `probability` with an empty wire sequence behaves identically
to `wires=None`: the empty sequence is falsy in `wires or range(num_wires)`,
so in both cases the full unmarginalized distribution over all device wires
is produced (not a marginal over zero wires). -/
theorem C9_probability_empty_wires (dev : QubitDevice) :
    probability dev (some []) = probability dev none ∧
    probability dev (some []) =
      (if dev.analytic then dev.analytic_prob (some (List.range dev.num_wires))
       else estimate_probability dev.shots dev.samples (List.range dev.num_wires)) :=
  ⟨rfl, rfl⟩

/-- C10: `statistics` silently skips an observable whose return-type tag is
`None`: it neither raises nor appends a result entry, so deleting such an
observable from the list leaves the result unchanged (and the result list is
shorter than the observable list). -/
theorem C10_statistics_skips_none (dev : QubitDevice)
    (pre post : List Observable) (obs : Observable)
    (h : obs.return_type = none) :
    statistics dev (pre ++ obs :: post) = statistics dev (pre ++ post) := by
  induction pre with
  | nil => simp [statistics, h]
  | cons o pre ih =>
    rcases hr : o.return_type with _ | t
    · simpa [statistics, hr] using ih
    · cases t <;> simp [statistics, hr, ih]

/-- Witness for C10: a `None`-typed observable in front of a `PauliZ`
expectation is skipped. -/
theorem C10_witness :
    obsNone.return_type = none ∧
    statistics devA ([] ++ obsNone :: [obsZ]) = statistics devA ([] ++ [obsZ]) :=
  ⟨rfl, C10_statistics_skips_none devA [] [obsZ] obsNone rfl⟩

/-- C6: when `statistics` meets an observable whose return-type tag is not
one of the four supported ones (and not `None`), it raises a
`QuantumFunctionError` whose message names the offending observable, and
`execute` propagates the very same error to the caller without retry. -/
theorem statistics_error_of_first_other (d : QubitDevice) :
    ∀ (pre : List Observable) (obs : Observable) (post : List Observable),
      (∀ o ∈ pre, o.return_type ≠ some ReturnType.Other) →
      obs.return_type = some ReturnType.Other →
      statistics d (pre ++ obs :: post) = .error (unsupportedMsg obs) := by
  intro pre
  induction pre with
  | nil =>
    intro obs post _ h
    simp [statistics, h]
  | cons o pre ih =>
    intro obs post hpre h
    have hrec := ih obs post (fun o' ho' => hpre o' (List.mem_cons_of_mem _ ho')) h
    have ho : o.return_type ≠ some ReturnType.Other :=
      hpre o (List.mem_cons_self _ _)
    rcases hr : o.return_type with _ | t
    · simpa [statistics, hr] using hrec
    · cases t
      · simp [statistics, hr, hrec, Except.map]
      · simp [statistics, hr, hrec, Except.map]
      · simp [statistics, hr, hrec, Except.map]
      · simp [statistics, hr, hrec, Except.map]
      · exact absurd hr ho

theorem C6_unsupported_return_type (dev : QubitDevice) (c : Circuit)
    (pre post : List Observable) (obs : Observable)
    (hobs : c.observables = pre ++ obs :: post)
    (hpre : ∀ o ∈ pre, o.return_type ≠ some ReturnType.Other)
    (h : obs.return_type = some ReturnType.Other) :
    statistics dev c.observables = .error (unsupportedMsg obs) ∧
    execute dev c = .error (unsupportedMsg obs) ∧
    unsupportedMsg obs =
      "Unsupported return type specified for observable " ++ obs.name := by
  have key : ∀ d : QubitDevice,
      statistics d (pre ++ obs :: post) = .error (unsupportedMsg obs) :=
    fun d => statistics_error_of_first_other d pre obs post hpre h
  refine ⟨by rw [hobs]; exact key dev, ?_, rfl⟩
  simp only [execute, hobs, key, Except.map]

/-- Witness for C6: a supported observable followed by one with an
unsupported tag. -/
theorem C6_witness :
    (Circuit.mk [obsZ, obsBad] false).observables = [obsZ] ++ obsBad :: [] ∧
    statistics devA [obsZ, obsBad] = .error (unsupportedMsg obsBad) ∧
    execute devA (Circuit.mk [obsZ, obsBad] false) = .error (unsupportedMsg obsBad) := by
  have hpre : ∀ o ∈ [obsZ], o.return_type ≠ some ReturnType.Other := by
    intro o ho
    rw [List.mem_singleton] at ho
    subst ho
    intro hcon
    simp [obsZ] at hcon
  have h := C6_unsupported_return_type devA (Circuit.mk [obsZ, obsBad] false)
    [obsZ] [] obsBad rfl hpre rfl
  exact ⟨rfl, h.1, h.2.1⟩

theorem getD_map_range {α : Type} (m j : ℕ) (g : ℕ → α) (d : α) (h : j < m) :
    ((List.range m).map g).getD j d = g j := by
  rw [List.getD_eq_getElem _ _ (by simpa using h)]
  simp

theorem count_sampleIndices (samples : List (List ℕ)) (W : List ℕ) (j : ℕ) :
    (sampleIndices samples W).count j =
      (samples.filter fun row => fromBits (W.map fun w => row.getD w 0) == j).length := by
  rw [sampleIndices, List.count_eq_countP, List.countP_map,
    (List.countP_eq_length_filter ..)]
  rfl

/-- C4: `estimate_probability` returns the vector of length `2 ^ |W|` whose
entry `j` is the number of sample rows whose `W`-columns, read as a
big-endian base-2 number, equal `j`, divided by the device's shot count
(entries for indices that never occur are the `0` of the zero-initialised
vector, which the formula also yields). -/
theorem C4_estimate_probability (shots num_wires : ℕ)
    (samples : List (List ℕ)) (W : List ℕ)
    (hshape : samples.length = shots ∧ ∀ row ∈ samples, row.length = num_wires)
    (hbits : ∀ row ∈ samples, ∀ b ∈ row, b ≤ 1)
    (hW : W ≠ []) :
    (estimate_probability shots samples W).length = 2 ^ W.length ∧
    ∀ j < 2 ^ W.length,
      (estimate_probability shots samples W).getD j 0 =
        ((samples.filter fun row =>
            fromBits (W.map fun w => row.getD w 0) == j).length : ℚ) / shots := by
  refine ⟨by simp [estimate_probability], fun j hj => ?_⟩
  rw [estimate_probability, getD_map_range _ _ _ _ hj, count_sampleIndices]

/-- Witness for C4: three 2-bit samples on wires `[1, 0]`. -/
theorem C4_witness :
    (([[0, 1], [1, 0], [0, 1]] : List (List ℕ)).length = 3 ∧
      ∀ row ∈ ([[0, 1], [1, 0], [0, 1]] : List (List ℕ)), row.length = 2) ∧
    (∀ row ∈ ([[0, 1], [1, 0], [0, 1]] : List (List ℕ)), ∀ b ∈ row, b ≤ 1) ∧
    (estimate_probability 3 [[0, 1], [1, 0], [0, 1]] [1, 0]).length = 2 ^ 2 ∧
    ∀ j < 2 ^ 2,
      (estimate_probability 3 [[0, 1], [1, 0], [0, 1]] [1, 0]).getD j 0 =
        ((([[0, 1], [1, 0], [0, 1]] : List (List ℕ)).filter fun row =>
            fromBits ([1, 0].map fun w => row.getD w 0) == j).length : ℚ) / 3 :=
  ⟨⟨by decide, by decide⟩, by decide,
    C4_estimate_probability 3 2 [[0, 1], [1, 0], [0, 1]] [1, 0]
      ⟨by decide, by decide⟩ (by decide) (by decide)⟩

theorem dot_eq_sum :
    ∀ (a b : List ℚ), b.length = a.length →
      dot a b = ∑ k ∈ Finset.range a.length, a.getD k 0 * b.getD k 0 := by
  intro a
  induction a with
  | nil => intro b _; simp [dot]
  | cons x a ih =>
    intro b hb
    match b with
    | [] => simp at hb
    | y :: b =>
      have hb' : b.length = a.length := by simpa using hb
      have hdot : dot (x :: a) (y :: b) = x * y + dot a b := by
        simp [dot]
      rw [hdot, ih b hb', List.length_cons, Finset.sum_range_succ']
      simp [List.getD_cons_succ, List.getD_cons_zero, add_comm]

/-- C5: in analytic mode, `expval` is the (real part of the) inner product
`eigvals·prob` and `var` is `eigvals²·prob − (eigvals·prob)²`, where `prob`
is the probability vector over the observable's translated wires.  The
eigenvalues are real, so the `.real` projection is the identity in this
model. -/
theorem C5_expval_var_analytic (dev : QubitDevice) (obs : Observable)
    (h : dev.analytic = true)
    (hlen : (probability dev (some (dev.translate obs.wires))).length =
      obs.eigvals.length) :
    expval dev obs =
      (∑ k ∈ Finset.range obs.eigvals.length,
        obs.eigvals.getD k 0 *
          (probability dev (some (dev.translate obs.wires))).getD k 0) ∧
    var dev obs =
      (∑ k ∈ Finset.range obs.eigvals.length,
        obs.eigvals.getD k 0 ^ 2 *
          (probability dev (some (dev.translate obs.wires))).getD k 0) -
      (∑ k ∈ Finset.range obs.eigvals.length,
        obs.eigvals.getD k 0 *
          (probability dev (some (dev.translate obs.wires))).getD k 0) ^ 2 := by
  have h1 : dot obs.eigvals (probability dev (some (dev.translate obs.wires))) =
      ∑ k ∈ Finset.range obs.eigvals.length,
        obs.eigvals.getD k 0 *
          (probability dev (some (dev.translate obs.wires))).getD k 0 :=
    dot_eq_sum _ _ hlen
  have h2 : dot (obs.eigvals.map fun e => e ^ 2)
        (probability dev (some (dev.translate obs.wires))) =
      ∑ k ∈ Finset.range obs.eigvals.length,
        obs.eigvals.getD k 0 ^ 2 *
          (probability dev (some (dev.translate obs.wires))).getD k 0 := by
    rw [dot_eq_sum _ _ (by simpa using hlen)]
    refine Finset.sum_congr (by simp) fun k hk => ?_
    rw [Finset.mem_range] at hk
    rw [List.getD_eq_getElem _ _ (by simpa using hk)]
    rw [List.getD_eq_getElem _ _ hk]
    simp
  constructor
  · rw [expval]
    simp only [h, if_true]
    exact h1
  · rw [var]
    simp only [h, if_true]
    rw [h1, h2]

/-- Witness for C5: the spec scenario — analytic device, `PauliZ`-style
eigenvalues `[1, -1]`, probability vector `[1, 0]` on the observable's
wire. -/
theorem C5_witness :
    devA.analytic = true ∧
    (probability devA (some (devA.translate obsZ.wires))).length =
      obsZ.eigvals.length ∧
    expval devA obsZ =
      (∑ k ∈ Finset.range obsZ.eigvals.length,
        obsZ.eigvals.getD k 0 *
          (probability devA (some (devA.translate obsZ.wires))).getD k 0) ∧
    var devA obsZ =
      (∑ k ∈ Finset.range obsZ.eigvals.length,
        obsZ.eigvals.getD k 0 ^ 2 *
          (probability devA (some (devA.translate obsZ.wires))).getD k 0) -
      (∑ k ∈ Finset.range obsZ.eigvals.length,
        obsZ.eigvals.getD k 0 *
          (probability devA (some (devA.translate obsZ.wires))).getD k 0) ^ 2 := by
  have h := C5_expval_var_analytic devA obsZ rfl rfl
  exact ⟨rfl, rfl, h.1, h.2⟩

theorem states_to_binary_eq_map (s : ℕ) :
    ∀ n, states_to_binary s n = (List.range n).map fun j => wireBit n j s := by
  intro n
  induction n with
  | zero => rfl
  | succ n ih =>
    rw [states_to_binary_succ, ih, List.range_succ_eq_map, List.map_cons,
      List.map_map]
    congr 1
    · rw [and_pow_pos_iff]
      rfl
    · refine List.map_congr_left fun j hj => ?_
      show wireBit n j s = wireBit (n + 1) (j + 1) s
      have he : n + 1 - 1 - (j + 1) = n - 1 - j := by omega
      rw [wireBit, wireBit, he]

/-- C8: `generate_samples` asks the sampler for `shots` draws from the
distribution `analytic_probability()` over `2 ^ num_wires` basis states
(weighted sampling with replacement is the contract of `np.random.choice`,
modelled by the `rng` oracle and the hypotheses on `draw`), and returns the
`(shots, num_wires)`-shaped array whose row `k` is the big-endian
`num_wires`-bit binary expansion (first wire = most significant bit) of the
`k`-th sampled index. -/
theorem C8_generate_samples (dev : QubitDevice) (draw : List ℕ)
    (hdraw : dev.rng (2 ^ dev.num_wires) (dev.analytic_prob none) = draw)
    (hlen : draw.length = dev.shots)
    (hmem : ∀ s ∈ draw, s < 2 ^ dev.num_wires) :
    generate_samples dev = draw.map (fun s => states_to_binary s dev.num_wires) ∧
    (generate_samples dev).length = dev.shots ∧
    (∀ row ∈ generate_samples dev, row.length = dev.num_wires) ∧
    ∀ k < draw.length,
      (generate_samples dev).getD k [] =
        ((List.range dev.num_wires).map fun j =>
          wireBit dev.num_wires j (draw.getD k 0)) ∧
      fromBits ((generate_samples dev).getD k []) = draw.getD k 0 := by
  have hgen : generate_samples dev =
      draw.map fun s => states_to_binary s dev.num_wires := by
    rw [generate_samples]
    simp only [sample_basis_states, hdraw]
  refine ⟨hgen, by rw [hgen]; simpa using hlen, ?_, ?_⟩
  · intro row hrow
    rw [hgen] at hrow
    rcases List.mem_map.mp hrow with ⟨s, _, rfl⟩
    exact length_states_to_binary s dev.num_wires
  · intro k hk
    have hget : (generate_samples dev).getD k [] =
        states_to_binary (draw.getD k 0) dev.num_wires := by
      rw [hgen, List.getD_eq_getElem _ _ (by simpa using hk),
        List.getElem_map, List.getD_eq_getElem _ _ hk]
    constructor
    · rw [hget, states_to_binary_eq_map]
    · rw [hget, fromBits_states_to_binary, Nat.mod_eq_of_lt]
      exact hmem _ (by rw [List.getD_eq_getElem _ _ hk]; exact List.getElem_mem hk)

/-- Witness for C8 on `devR`: draws `[3, 0]` become rows `[1,1]` and `[0,0]`. -/
theorem C8_witness :
    devR.rng (2 ^ devR.num_wires) (devR.analytic_prob none) = [3, 0] ∧
    ([3, 0] : List ℕ).length = devR.shots ∧
    (∀ s ∈ ([3, 0] : List ℕ), s < 2 ^ devR.num_wires) ∧
    generate_samples devR =
      ([3, 0] : List ℕ).map (fun s => states_to_binary s devR.num_wires) ∧
    (generate_samples devR).length = devR.shots ∧
    ∀ k < ([3, 0] : List ℕ).length,
      fromBits ((generate_samples devR).getD k []) = ([3, 0] : List ℕ).getD k 0 := by
  have h := C8_generate_samples devR [3, 0] rfl (by decide) (by decide)
  exact ⟨rfl, by decide, by decide, h.1, h.2.1, fun k hk => (h.2.2.2 k hk).2⟩

theorem statistics_ok_of_no_other (d : QubitDevice) :
    ∀ l : List Observable, (∀ o ∈ l, o.return_type ≠ some ReturnType.Other) →
      ∃ rs, statistics d l = .ok rs := by
  intro l
  induction l with
  | nil => exact fun _ => ⟨[], rfl⟩
  | cons o l ih =>
    intro hno
    obtain ⟨rs, hrs⟩ := ih fun o' ho' => hno o' (List.mem_cons_of_mem _ ho')
    have ho : o.return_type ≠ some ReturnType.Other :=
      hno o (List.mem_cons_self _ _)
    rcases hr : o.return_type with _ | t
    · exact ⟨rs, by simpa [statistics, hr] using hrs⟩
    · cases t
      · exact ⟨.scalar (expval d o) :: rs,
          by simp [statistics, hr, hrs, Except.map]⟩
      · exact ⟨.scalar (var d o) :: rs,
          by simp [statistics, hr, hrs, Except.map]⟩
      · exact ⟨.vector (sample d o) :: rs,
          by simp [statistics, hr, hrs, Except.map]⟩
      · exact ⟨.vector (probability d (some (d.translate o.wires))) :: rs,
          by simp [statistics, hr, hrs, Except.map]⟩
      · exact absurd hr ho

/-- C7 counterexample: `execute` wraps the result in the heterogeneous
object-dtype container for a circuit mixing a raw-sample observable with a
probability observable even though both result entries have the *same*
shape (two length-4 vectors), refuting "only when … of different shapes". -/
theorem C7_counterexample :
    execute devS circMix =
      .ok (.objectArr [.vector [1, 1, -1, -1],
        .vector [1 / 4, 1 / 4, 1 / 4, 1 / 4]]) ∧
    resShape (StatResult.vector [1, 1, -1, -1]) =
      resShape (StatResult.vector [(1 : ℚ) / 4, 1 / 4, 1 / 4, 1 / 4]) ∧
    circMix.is_sampled = true ∧
    obsSample.return_type = some ReturnType.Sample ∧
    obsProb.return_type ≠ some ReturnType.Sample := by
  have hgen : generate_samples devS = [[0, 0], [0, 1], [1, 0], [1, 1]] := by decide
  refine ⟨?_, rfl, rfl, rfl, by decide⟩
  have hcond : (!devS.analytic || circMix.is_sampled) = true := by decide
  have hdev : (if !devS.analytic || circMix.is_sampled
      then { devS with samples := generate_samples devS } else devS) =
      { devS with samples := [[0, 0], [0, 1], [1, 0], [1, 1]] } := by
    rw [hgen, if_pos hcond]
  rw [execute, hdev]
  simp [statistics, obsSample, obsProb, circMix, Except.map, devS]
  constructor
  · simp +decide [sample]
    norm_num
  · simp [probability]

/-- C7 (amended): `execute` yields the object-dtype container exactly when
the circuit is flagged as sampled and not every observable is
`Sample`-typed, i.e. only when the result mixes sampled and non-sampled
observables — regardless of the shapes of the entries; with observables of
a single return type, or with no raw-sample observables, the result is a
plain numeric array. -/
theorem C7_container_choice (dev : QubitDevice) (c : Circuit)
    (hno : ∀ o ∈ c.observables, o.return_type ≠ some ReturnType.Other)
    (hflag : c.is_sampled =
      (c.observables.any fun o => o.return_type == some ReturnType.Sample)) :
    (∃ rs, execute dev c = .ok (.numeric rs) ∨
      execute dev c = .ok (.objectArr rs)) ∧
    (∀ rs, execute dev c = .ok (.objectArr rs) →
      (∃ o ∈ c.observables, o.return_type = some ReturnType.Sample) ∧
      (∃ o ∈ c.observables, o.return_type ≠ some ReturnType.Sample)) ∧
    (((∀ o ∈ c.observables, o.return_type = some ReturnType.Sample) ∨
        (∀ o ∈ c.observables, o.return_type ≠ some ReturnType.Sample)) →
      ∃ rs, execute dev c = .ok (.numeric rs)) := by
  obtain ⟨rs, hrs⟩ := statistics_ok_of_no_other
    (if !dev.analytic || c.is_sampled
      then { dev with samples := generate_samples dev } else dev)
    c.observables hno
  have hex : execute dev c =
      .ok (if c.is_sampled &&
            !(c.observables.all fun o => o.return_type == some ReturnType.Sample)
          then ExecResult.objectArr rs else ExecResult.numeric rs) := by
    simp only [execute, hrs, Except.map]
  by_cases hcond : (c.is_sampled &&
      !(c.observables.all fun o => o.return_type == some ReturnType.Sample)) = true
  · rw [if_pos hcond] at hex
    rcases Bool.and_eq_true .. |>.mp hcond with ⟨hsampled, hnall⟩
    have hexists : ∃ o ∈ c.observables, o.return_type = some ReturnType.Sample := by
      have := hflag ▸ hsampled
      rcases List.any_eq_true.mp this with ⟨o, ho, hbeq⟩
      exact ⟨o, ho, by simpa using hbeq⟩
    have hnall' : ∃ o ∈ c.observables, o.return_type ≠ some ReturnType.Sample := by
      have hallf : (c.observables.all
          fun o => o.return_type == some ReturnType.Sample) = false := by
        simpa using hnall
      rcases List.all_eq_false.mp hallf with ⟨o, ho, hne⟩
      exact ⟨o, ho, by simpa using hne⟩
    refine ⟨⟨rs, Or.inr hex⟩, fun rs' _ => ⟨hexists, hnall'⟩, fun h2 => ?_⟩
    exfalso
    rcases h2 with hall | hnone
    · have : (c.observables.all fun o => o.return_type == some ReturnType.Sample)
          = true := List.all_eq_true.mpr fun o ho => by simp [hall o ho]
      rw [this] at hnall
      simp at hnall
    · have : (c.observables.any fun o => o.return_type == some ReturnType.Sample)
          = false := by
        rw [List.any_eq_false]
        intro o ho
        simpa using hnone o ho
      rw [hflag, this] at hsampled
      exact Bool.false_ne_true hsampled
  · rw [if_neg hcond] at hex
    refine ⟨⟨rs, Or.inl hex⟩, fun rs' h' => ?_, fun _ => ⟨rs, hex⟩⟩
    rw [hex] at h'
    cases h'

theorem range_map_getD (w : List ℕ) :
    (List.range w.length).map (fun j => w.getD j 0) = w := by
  apply List.ext_getElem
  · simp
  · intro i h1 h2
    simp only [List.getElem_map, List.getElem_range]
    exact List.getD_eq_getElem w 0 h2

theorem length_argsort (w : List ℕ) : (argsort w).length = w.length := by
  rw [argsort, List.length_insertionSort, List.length_range]

theorem perm_argsort (w : List ℕ) : List.Perm (argsort w) (List.range w.length) :=
  List.perm_insertionSort _ _

theorem sorted_argsort (w : List ℕ) :
    List.Sorted (fun a b => w.getD a 0 ≤ w.getD b 0) (argsort w) := by
  haveI : IsTotal ℕ (fun a b => w.getD a 0 ≤ w.getD b 0) :=
    ⟨fun a b => le_total _ _⟩
  haveI : IsTrans ℕ (fun a b => w.getD a 0 ≤ w.getD b 0) :=
    ⟨fun a b c hab hbc => le_trans hab hbc⟩
  exact List.sorted_insertionSort _ _

/-- The values of `w` read through `argsort w` are exactly the members of `w`
listed in increasing order — which is also how the kept axes of a reshaped
probability tensor appear after `flatten`. -/
theorem map_key_argsort (w : List ℕ) (n : ℕ) (hnd : w.Nodup)
    (hlt : ∀ v ∈ w, v < n) :
    (argsort w).map (fun j => w.getD j 0) =
      (List.range n).filter (fun a => w.contains a) := by
  have hperm1 : List.Perm ((argsort w).map (fun j => w.getD j 0)) w := by
    have h := (perm_argsort w).map (fun j => w.getD j 0)
    rwa [range_map_getD] at h
  have hRnodup : ((List.range n).filter (fun a => w.contains a)).Nodup :=
    (List.nodup_range n).filter _
  have hperm2 : List.Perm w ((List.range n).filter (fun a => w.contains a)) := by
    apply List.perm_of_nodup_nodup_toFinset_eq hnd hRnodup
    ext a
    simp only [List.mem_toFinset, List.mem_filter, List.mem_range]
    constructor
    · intro ha
      exact ⟨hlt a ha, by simpa [List.elem_iff] using ha⟩
    · rintro ⟨-, ha⟩
      simpa [List.elem_iff] using ha
  have hsorted1 : List.Sorted (· ≤ ·) ((argsort w).map (fun j => w.getD j 0)) :=
    (sorted_argsort w).map _ (fun a b h => h)
  have hsorted2 : List.Sorted (· ≤ ·)
      ((List.range n).filter (fun a => w.contains a)) :=
    ((List.sorted_lt_range n).filter _).imp le_of_lt
  exact List.eq_of_perm_of_sorted (hperm1.trans hperm2) hsorted1 hsorted2

/-- The double argsort is the inverse permutation of the single argsort:
`argsort(w)[argsort(argsort(w))[j]] = j`. -/
theorem argsort_getD_double (w : List ℕ) (hnd : w.Nodup) (j : ℕ)
    (hj : j < w.length) :
    (argsort w).getD ((argsort (argsort w)).getD j 0) 0 = j := by
  have hs_perm := perm_argsort w
  have hs_len : (argsort w).length = w.length := length_argsort w
  have hs_nodup : (argsort w).Nodup :=
    hs_perm.nodup_iff.mpr (List.nodup_range _)
  have hs_lt : ∀ v ∈ argsort w, v < (argsort w).length := by
    intro v hv
    have := List.mem_range.mp (hs_perm.mem_iff.mp hv)
    omega
  have hmap := map_key_argsort (argsort w) (argsort w).length hs_nodup hs_lt
  have hfilter : (List.range (argsort w).length).filter
      (fun a => (argsort w).contains a) = List.range (argsort w).length := by
    apply List.filter_eq_self.mpr
    intro a ha
    have hmem : a ∈ argsort w := hs_perm.mem_iff.mpr (by rwa [hs_len] at ha)
    simpa [List.elem_iff] using hmem
  rw [hfilter] at hmap
  have hj2 : j < (argsort (argsort w)).length := by
    rw [length_argsort, hs_len]
    exact hj
  have hj3 : j < ((argsort (argsort w)).map
      (fun i => (argsort w).getD i 0)).length := by
    rw [List.length_map]
    exact hj2
  have hL := congrArg (fun l => l.getD j 0) hmap
  simp only at hL
  rw [List.getD_eq_getElem _ _ hj3, List.getElem_map] at hL
  have hr : (List.range (argsort w).length).getD j 0 = j := by
    rw [List.getD_eq_getElem _ _ (by rw [List.length_range, hs_len]; exact hj),
      List.getElem_range]
  rw [List.getD_eq_getElem (argsort (argsort w)) 0 hj2]
  exact hL.trans hr

theorem rank_getD_lt (w : List ℕ) (j : ℕ) (hj : j < w.length) :
    (argsort (argsort w)).getD j 0 < w.length := by
  have hperm := perm_argsort (argsort w)
  have hlen : (argsort (argsort w)).length = w.length := by
    rw [length_argsort, length_argsort]
  have hj2 : j < (argsort (argsort w)).length := by rw [hlen]; exact hj
  have hmem : (argsort (argsort w)).getD j 0 ∈ argsort (argsort w) := by
    rw [List.getD_eq_getElem _ _ hj2]
    exact List.getElem_mem hj2
  have := List.mem_range.mp (hperm.mem_iff.mp hmem)
  rwa [length_argsort] at this

theorem perm_rank_range (w : List ℕ) :
    List.Perm (argsort (argsort w)) (List.range w.length) := by
  have h := perm_argsort (argsort w)
  rwa [length_argsort] at h

/-- Universally quantified statements over `Finset.range k` can be reindexed
through a permutation of `range k` given as a list. -/
theorem forall_range_comp_perm {k : ℕ} (rank : List ℕ)
    (hperm : List.Perm rank (List.range k)) (P : ℕ → Prop) :
    (∀ j ∈ Finset.range k, P (rank.getD j 0)) ↔ ∀ j ∈ Finset.range k, P j := by
  have hlen : rank.length = k := by rw [hperm.length_eq, List.length_range]
  constructor
  · intro h m hm
    rw [Finset.mem_range] at hm
    have hmem : m ∈ rank := hperm.mem_iff.mpr (List.mem_range.mpr hm)
    rcases List.getElem_of_mem hmem with ⟨j, hjlt, hje⟩
    have hh := h j (Finset.mem_range.mpr (by omega))
    rwa [List.getD_eq_getElem _ _ hjlt, hje] at hh
  · intro h j hj
    rw [Finset.mem_range] at hj
    have hj2 : j < rank.length := by omega
    have hmem : rank.getD j 0 ∈ rank := by
      rw [List.getD_eq_getElem _ _ hj2]
      exact List.getElem_mem hj2
    have hlt : rank.getD j 0 < k := List.mem_range.mp (hperm.mem_iff.mp hmem)
    exact h _ (Finset.mem_range.mpr hlt)

theorem wireBit_le_one (n j i : ℕ) : wireBit n j i ≤ 1 := by
  have := Nat.mod_lt (i / 2 ^ (n - 1 - j)) (show 0 < 2 by norm_num)
  unfold wireBit
  omega

theorem fromBits_lt (l : List ℕ) (h : ∀ b ∈ l, b ≤ 1) :
    fromBits l < 2 ^ l.length := by
  induction l with
  | nil => simp [fromBits]
  | cons b l ih =>
    rw [fromBits_cons]
    have hb : b ≤ 1 := h b (List.mem_cons_self _ _)
    have hr : fromBits l < 2 ^ l.length :=
      ih fun x hx => h x (List.mem_cons_of_mem _ hx)
    have hble : b * 2 ^ l.length ≤ 2 ^ l.length := by
      calc b * 2 ^ l.length ≤ 1 * 2 ^ l.length := Nat.mul_le_mul_right _ hb
        _ = 2 ^ l.length := one_mul _
    rw [List.length_cons, pow_succ]
    omega

/-- Digit recovery: the big-endian digits of `fromBits l` are the entries of
`l`, provided the entries are binary. -/
theorem wireBit_fromBits :
    ∀ l : List ℕ, (∀ b ∈ l, b ≤ 1) →
      ∀ j < l.length, wireBit l.length j (fromBits l) = l.getD j 0 := by
  intro l
  induction l with
  | nil =>
    intro _ j hj
    simp at hj
  | cons b l ih =>
    intro h j hj
    have hb : b ≤ 1 := h b (List.mem_cons_self _ _)
    have hl : ∀ x ∈ l, x ≤ 1 := fun x hx => h x (List.mem_cons_of_mem _ hx)
    have hr : fromBits l < 2 ^ l.length := fromBits_lt l hl
    match j with
    | 0 =>
      show fromBits (b :: l) / 2 ^ ((b :: l).length - 1 - 0) % 2 = b
      have hlen : (b :: l).length - 1 - 0 = l.length := by
        simp
      rw [hlen, fromBits_cons, mul_comm,
        Nat.mul_add_div (Nat.pos_pow_of_pos _ (by norm_num)),
        Nat.div_eq_of_lt hr, Nat.add_zero, Nat.mod_eq_of_lt (by omega)]
    | j + 1 =>
      show fromBits (b :: l) / 2 ^ ((b :: l).length - 1 - (j + 1)) % 2 =
        (b :: l).getD (j + 1) 0
      have hj2 : j < l.length := by
        simp only [List.length_cons] at hj
        omega
      have hlen : (b :: l).length - 1 - (j + 1) = l.length - 1 - j := by
        simp only [List.length_cons]
        omega
      have hdvd : (2 : ℕ) ^ (l.length - 1 - j) ∣ b * 2 ^ l.length :=
        Dvd.dvd.mul_left (pow_dvd_pow 2 (by omega)) b
      have hq : b * 2 ^ l.length / 2 ^ (l.length - 1 - j) = b * 2 ^ j * 2 := by
        rw [Nat.mul_div_assoc b (pow_dvd_pow 2 (by omega)),
          Nat.pow_div (by omega) (by norm_num)]
        have he : l.length - (l.length - 1 - j) = j + 1 := by omega
        rw [he, pow_succ]
        ring
      rw [List.getD_cons_succ, hlen, fromBits_cons,
        Nat.add_div_of_dvd_right hdvd, hq, add_comm, Nat.add_mul_mod_self_right]
      exact ih hl j hj2

theorem length_permIndex_list (k : ℕ) (rank : List ℕ) (i : ℕ) :
    ((List.range k).map fun j => wireBit k (rank.getD j 0) i).length = k := by
  simp

theorem wireBit_permIndex (k : ℕ) (rank : List ℕ) (i j : ℕ) (hj : j < k) :
    wireBit k j (permIndex k rank i) = wireBit k (rank.getD j 0) i := by
  have hlist : ∀ b ∈ (List.range k).map fun j => wireBit k (rank.getD j 0) i,
      b ≤ 1 := by
    intro b hb
    rcases List.mem_map.mp hb with ⟨j', -, rfl⟩
    exact wireBit_le_one _ _ _
  have hlen := length_permIndex_list k rank i
  have hrec := wireBit_fromBits _ hlist j (by rw [hlen]; exact hj)
  rw [hlen] at hrec
  rw [permIndex, hrec, getD_map_range _ _ _ _ hj]

/-- Witness for the amended C7 theorem on the mixed sampled/probability
circuit. -/
theorem C7_witness :
    (∀ o ∈ circMix.observables, o.return_type ≠ some ReturnType.Other) ∧
    circMix.is_sampled =
      (circMix.observables.any fun o => o.return_type == some ReturnType.Sample) ∧
    ((∃ rs, execute devS circMix = .ok (.numeric rs) ∨
        execute devS circMix = .ok (.objectArr rs)) ∧
      (∀ rs, execute devS circMix = .ok (.objectArr rs) →
        (∃ o ∈ circMix.observables, o.return_type = some ReturnType.Sample) ∧
        (∃ o ∈ circMix.observables, o.return_type ≠ some ReturnType.Sample)) ∧
      (((∀ o ∈ circMix.observables, o.return_type = some ReturnType.Sample) ∨
          (∀ o ∈ circMix.observables, o.return_type ≠ some ReturnType.Sample)) →
        ∃ rs, execute devS circMix = .ok (.numeric rs))) := by
  have hno : ∀ o ∈ circMix.observables, o.return_type ≠ some ReturnType.Other := by
    intro o ho
    simp only [circMix, List.mem_cons, List.not_mem_nil, or_false] at ho
    rcases ho with rfl | rfl
    · decide
    · decide
  exact ⟨hno, by decide, C7_container_choice devS circMix hno (by decide)⟩

/-- C1 (amended): for a duplicate-free wire subset `W` of `[0, num_wires)`,
the entry of `marginal_prob(p, W)` at index `i` sums `p` over the full basis
states whose bit at wire `W[j]` equals bit `ρ(ρ(j))` of `i`, where
`ρ = argsort(argsort(W))` is the double-argsort rank permutation.  This
coincides with the claimed reading — bit `j` of `i` at wire `W[j]` — exactly
when `ρ` is an involution (e.g. `W = [2, 0]`), but not in general. -/
theorem C1_marginal_prob_reordering (num_wires : ℕ) (p : ℕ → ℚ) (W : List ℕ)
    (hW : W ≠ []) (hnd : W.Nodup) (hsub : ∀ w ∈ W, w < num_wires)
    (hns : ¬ List.Sorted (· < ·) W) (i : ℕ) (hi : i < 2 ^ W.length) :
    marginal_prob num_wires p (some W) i =
      ∑ x ∈ Finset.range (2 ^ num_wires),
        if ∀ j ∈ Finset.range W.length,
            wireBit num_wires (W.getD j 0) x =
              wireBit W.length
                ((argsort (argsort W)).getD ((argsort (argsort W)).getD j 0) 0) i
        then p x else 0 := by
  have hmap := map_key_argsort W num_wires hnd hsub
  have hAlen : ((List.range num_wires).filter
      (fun a => W.contains a)).length = W.length := by
    rw [← hmap, List.length_map, length_argsort]
  have hrankperm := perm_rank_range W
  show sumInactive num_wires p ((List.range num_wires).filter
      (fun a => W.contains a)) (permIndex W.length (argsort (argsort W)) i) = _
  rw [sumInactive]
  apply Finset.sum_congr rfl
  intro x hx
  apply if_congr _ rfl rfl
  rw [hAlen]
  have step1 : (∀ j ∈ Finset.range W.length,
      wireBit num_wires (((List.range num_wires).filter
        (fun a => W.contains a)).getD j 0) x =
        wireBit W.length j (permIndex W.length (argsort (argsort W)) i)) ↔
      ∀ j ∈ Finset.range W.length,
        wireBit num_wires (((List.range num_wires).filter
          (fun a => W.contains a)).getD j 0) x =
          wireBit W.length ((argsort (argsort W)).getD j 0) i := by
    constructor <;> intro h j hj <;> have hj2 := Finset.mem_range.mp hj
    · rw [← wireBit_permIndex W.length (argsort (argsort W)) i j hj2]
      exact h j hj
    · rw [wireBit_permIndex W.length (argsort (argsort W)) i j hj2]
      exact h j hj
  have step3 : ∀ j < W.length,
      ((List.range num_wires).filter
        (fun a => W.contains a)).getD ((argsort (argsort W)).getD j 0) 0 =
      W.getD j 0 := by
    intro j hj
    have hrl : (argsort (argsort W)).getD j 0 < (argsort W).length := by
      rw [length_argsort]
      exact rank_getD_lt W j hj
    rw [← hmap, List.getD_eq_getElem _ _ (by rw [List.length_map]; exact hrl),
      List.getElem_map, ← List.getD_eq_getElem (argsort W) 0 hrl,
      argsort_getD_double W hnd j hj]
  refine step1.trans ?_
  refine Iff.trans (forall_range_comp_perm (argsort (argsort W)) hrankperm
    (fun m => wireBit num_wires (((List.range num_wires).filter
      (fun a => W.contains a)).getD m 0) x =
      wireBit W.length ((argsort (argsort W)).getD m 0) i)).symm ?_
  constructor <;> intro h j hj <;> have hj2 := Finset.mem_range.mp hj
  · rw [← step3 j hj2]
    exact h j hj
  · rw [step3 j hj2]
    exact h j hj

/-- C1 counterexample: on the 3-wire point-mass distribution at `|010⟩` with
`W = [1, 2, 0]` (a 3-cycle, so a non-involutive reordering), the code's
entry 4 differs from the entry prescribed by the specification's reading of
basis-state bits in the caller's wire order. -/
theorem C1_counterexample :
    ([1, 2, 0] : List ℕ) ≠ [] ∧ ([1, 2, 0] : List ℕ).Nodup ∧
    (∀ w ∈ ([1, 2, 0] : List ℕ), w < 3) ∧
    ¬ List.Sorted (· < ·) ([1, 2, 0] : List ℕ) ∧
    (∑ x ∈ Finset.range (2 ^ 3), pointMass2 x) = 1 ∧
    (∀ x, 0 ≤ pointMass2 x) ∧
    marginal_prob 3 pointMass2 (some [1, 2, 0]) 4 = 0 ∧
    marginalPerSpec 3 pointMass2 [1, 2, 0] 4 = 1 ∧
    marginal_prob 3 pointMass2 (some [1, 2, 0]) 4 ≠
      marginalPerSpec 3 pointMass2 [1, 2, 0] 4 := by
  have h1 : marginal_prob 3 pointMass2 (some [1, 2, 0]) 4 = 0 := by
    simp +decide [pointMass2, marginal_prob, sumInactive, Finset.sum_range_succ]
  have h2 : marginalPerSpec 3 pointMass2 [1, 2, 0] 4 = 1 := by
    simp +decide [pointMass2, marginalPerSpec, Finset.sum_range_succ]
  refine ⟨by decide, by decide, by decide, by decide, ?_, ?_, h1, h2, ?_⟩
  · simp +decide [pointMass2, Finset.sum_range_succ]
  · intro x
    unfold pointMass2
    split <;> norm_num
  · rw [h1, h2]
    norm_num

/-- Witness for the amended C1 theorem at `num_wires = 3`, `W = [1, 2, 0]`,
`i = 4`, on the point-mass distribution at `|010⟩`. -/
theorem C1_witness :
    ([1, 2, 0] : List ℕ) ≠ [] ∧ ([1, 2, 0] : List ℕ).Nodup ∧
    (∀ w ∈ ([1, 2, 0] : List ℕ), w < 3) ∧
    ¬ List.Sorted (· < ·) ([1, 2, 0] : List ℕ) ∧ 4 < 2 ^ ([1, 2, 0] : List ℕ).length ∧
    marginal_prob 3 pointMass2 (some [1, 2, 0]) 4 =
      ∑ x ∈ Finset.range (2 ^ 3),
        if ∀ j ∈ Finset.range ([1, 2, 0] : List ℕ).length,
            wireBit 3 (([1, 2, 0] : List ℕ).getD j 0) x =
              wireBit ([1, 2, 0] : List ℕ).length
                ((argsort (argsort [1, 2, 0])).getD
                  ((argsort (argsort [1, 2, 0])).getD j 0) 0) 4
        then pointMass2 x else 0 :=
  ⟨by decide, by decide, by decide, by decide, by decide,
    C1_marginal_prob_reordering 3 pointMass2 [1, 2, 0] (by decide) (by decide)
      (by decide) (by decide) 4 (by decide)⟩

end PennyLane
